import Mathlib

/-!
Shallow embedding of the layered Bloom filter from `src/bloom_filter.rs`.

Modelling conventions:
* A Rust `&str` item is modelled by its byte sequence, `Str := List (Fin 256)`.
* `usize` arithmetic is `Nat` with explicit reduction modulo `2 ^ 64`
  (`wrapping_mul` / `wrapping_add` at the native 64-bit word width).
* Rust panics are modelled by `Option`: `BloomLevel.insert` and
  `BloomLevel.query` return `none` exactly when the Rust code would panic
  (`% 0` when `array_size = 0`, or an out-of-bounds index into `bit_array`).
* Fallible constructors and persistence return `Except BloomFilterError`.
-/

/-- Byte sequences standing for Rust string items (`s.bytes()`). -/
abbrev Str := List (Fin 256)

/-- The native unsigned word width: `usize` on a 64-bit target. -/
def usizeSize : Nat := 2 ^ 64

/-- `HashFunction { multiplier: usize }` from `src/bloom_filter.rs`. -/
structure HashFunction where
  multiplier : Nat
deriving DecidableEq

/-- `HashFunction::new(multiplier)`: stores the multiplier, no validation. -/
def HashFunction.new (multiplier : Nat) : HashFunction :=
  { multiplier := multiplier }

/-- `HashFunction::hash`: `s.bytes().fold(0, |hash, b| hash.wrapping_mul(self.multiplier).wrapping_add(b as usize))`.
`wrapping_mul` and `wrapping_add` each reduce modulo `2 ^ 64`. -/
def HashFunction.hash (hf : HashFunction) (s : Str) : Nat :=
  s.foldl (fun h b => (h * hf.multiplier % usizeSize + b.val) % usizeSize) 0

/-- The spec's description of the hash ("accumulator = (accumulator ×
multiplier + byte_value), with wraparound arithmetic at the native
unsigned-integer width"): a single modular reduction per step. Used only to
compare against `HashFunction.hash`, which is translated from the source. -/
def hashSpecFold (m : Nat) (s : Str) : Nat :=
  s.foldl (fun acc b => (acc * m + b.val) % usizeSize) 0

/-- `BloomLevel { bit_array: Vec<bool> }` from `src/bloom_filter.rs`. -/
structure BloomLevel where
  bit_array : List Bool
deriving DecidableEq

/-- `BloomLevel::new(array_size)`: `vec![false; array_size]`. -/
def BloomLevel.new (array_size : Nat) : BloomLevel :=
  { bit_array := List.replicate array_size false }

/-- `BloomLevel::insert`: for each hash function set
`bit_array[hash(item) % array_size] = true`. Returns `none` where Rust
panics: `% 0` when `array_size = 0`, or an index `≥ bit_array.len()`. -/
def BloomLevel.insert (lv : BloomLevel) (item : Str)
    (hash_functions : List HashFunction) (array_size : Nat) : Option BloomLevel :=
  match hash_functions with
  | [] => some lv
  | hf :: rest =>
    if array_size = 0 then none
    else
      let hash := hf.hash item % array_size
      if hash < lv.bit_array.length then
        BloomLevel.insert ⟨lv.bit_array.set hash true⟩ item rest array_size
      else none

/-- `BloomLevel::query`: for each hash function check
`bit_array[hash(item) % array_size]`; return `false` at the first unset
flag, `true` if all are set. `none` where Rust panics (as in `insert`). -/
def BloomLevel.query (lv : BloomLevel) (item : Str)
    (hash_functions : List HashFunction) (array_size : Nat) : Option Bool :=
  match hash_functions with
  | [] => some true
  | hf :: rest =>
    if array_size = 0 then none
    else
      let hash := hf.hash item % array_size
      match lv.bit_array[hash]? with
      | none => none
      | some b => if b then lv.query item rest array_size else some false

/-- `BloomFilterError` from `src/bloom_filter.rs` (payloads of the I/O and
serde variants are dropped; only the variant matters to the claims). -/
inductive BloomFilterError where
  | SerdeError : BloomFilterError
  | IoError : BloomFilterError
  | InvalidHashFunctions (requested : Nat) (available : Nat) : BloomFilterError
deriving DecidableEq

/-- `BloomFilter { levels, hash_functions, array_size }`. -/
structure BloomFilter where
  levels : List BloomLevel
  hash_functions : List HashFunction
  array_size : Nat
deriving DecidableEq

instance {E A : Type _} [DecidableEq E] [DecidableEq A] : DecidableEq (Except E A)
  | .error e, .error f =>
    if h : e = f then .isTrue (by rw [h]) else .isFalse (fun hh => h (Except.error.inj hh))
  | .error _, .ok _ => .isFalse (fun hh => Except.noConfusion hh)
  | .ok _, .error _ => .isFalse (fun hh => Except.noConfusion hh)
  | .ok x, .ok y =>
    if h : x = y then .isTrue (by rw [h]) else .isFalse (fun hh => h (Except.ok.inj hh))

/-- The fixed multiplier pool `vec![31, 37, 41, 43, 47, 53, 59, 61, 67, 71]`. -/
def multipliers : List Nat := [31, 37, 41, 43, 47, 53, 59, 61, 67, 71]

/-- `BloomFilter::new(num_levels, array_size, num_hash_functions)`. -/
def BloomFilter.new (num_levels array_size num_hash_functions : Nat) :
    Except BloomFilterError BloomFilter :=
  if num_hash_functions > multipliers.length then
    .error (.InvalidHashFunctions num_hash_functions multipliers.length)
  else
    .ok { levels := (List.range num_levels).map (fun _ => BloomLevel.new array_size)
          hash_functions := (multipliers.take num_hash_functions).map HashFunction.new
          array_size := array_size }

/-- The per-level loop of `BloomFilter::insert`: apply `BloomLevel::insert`
to every level in order, propagating a panic (`none`). -/
def insertLevels (item : Str) (hash_functions : List HashFunction)
    (array_size : Nat) : List BloomLevel → Option (List BloomLevel)
  | [] => some []
  | lv :: rest =>
    match lv.insert item hash_functions array_size,
        insertLevels item hash_functions array_size rest with
    | some lv2, some rest2 => some (lv2 :: rest2)
    | _, _ => none

/-- `BloomFilter::insert(item)`: inserts into all levels with the shared
hash-function family and `array_size`. -/
def BloomFilter.insert (bf : BloomFilter) (item : Str) : Option BloomFilter :=
  (insertLevels item bf.hash_functions bf.array_size bf.levels).map
    fun ls => { bf with levels := ls }

/-- A sequence of `insert` calls, panic-propagating. -/
def BloomFilter.insertMany (bf : BloomFilter) (items : List Str) : Option BloomFilter :=
  items.foldl (fun acc it => acc.bind (fun b => b.insert it)) (some bf)

/-- The level loop of `BloomFilter::query`: scan the given levels in order,
returning `true` at the first level reporting `true`. -/
def queryLevels (item : Str) (hash_functions : List HashFunction)
    (array_size : Nat) : List BloomLevel → Option Bool
  | [] => some false
  | lv :: rest =>
    match lv.query item hash_functions array_size with
    | none => none
    | some true => some true
    | some false => queryLevels item hash_functions array_size rest

/-- `BloomFilter::query(item, num_levels_to_search)`: clamps the count to
`min(num_levels_to_search, levels.len())` and scans that prefix of levels. -/
def BloomFilter.query (bf : BloomFilter) (item : Str)
    (num_levels_to_search : Nat) : Option Bool :=
  queryLevels item bf.hash_functions bf.array_size
    (bf.levels.take (min num_levels_to_search bf.levels.length))

/-- Structural well-formedness maintained by the code (§3 of the design:
"every Level in `levels` has `bits.length == array_size`"). -/
def BloomFilter.Wf (bf : BloomFilter) : Prop :=
  ∀ lv ∈ bf.levels, lv.bit_array.length = bf.array_size

instance (bf : BloomFilter) : Decidable bf.Wf :=
  inferInstanceAs (Decidable (∀ lv ∈ bf.levels, lv.bit_array.length = bf.array_size))

/-- The indices touched by one insert/query: `hash(item) % array_size` for
each hash function in family order. -/
def hashIdxs (hash_functions : List HashFunction) (item : Str) (array_size : Nat) : List Nat :=
  hash_functions.map (fun hf => hf.hash item % array_size)

/-- Pure core of a successful `BloomLevel.insert`: set every index to `true`. -/
def markBits (bits : List Bool) (idxs : List Nat) : List Bool :=
  idxs.foldl (fun bs i => bs.set i true) bits

/-- The level produced by a successful insert of `item`. -/
def markLevel (hash_functions : List HashFunction) (item : Str) (array_size : Nat)
    (lv : BloomLevel) : BloomLevel :=
  ⟨markBits lv.bit_array (hashIdxs hash_functions item array_size)⟩

/-- A level holds every bit that `item` hashes to. -/
def levelHas (hash_functions : List HashFunction) (array_size : Nat)
    (item : Str) (lv : BloomLevel) : Prop :=
  ∀ hf ∈ hash_functions, lv.bit_array.getD (hf.hash item % array_size) false = true

instance (hfs : List HashFunction) (asz : Nat) (item : Str) (lv : BloomLevel) :
    Decidable (levelHas hfs asz item lv) :=
  inferInstanceAs (Decidable (∀ hf ∈ hfs, lv.bit_array.getD (hf.hash item % asz) false = true))

/-! ### Basic lemmas about `markBits` -/

theorem markBits_nil (bits : List Bool) : markBits bits [] = bits := rfl

theorem markBits_cons (bits : List Bool) (i : Nat) (idxs : List Nat) :
    markBits bits (i :: idxs) = markBits (bits.set i true) idxs := rfl

theorem markBits_length (idxs : List Nat) (bits : List Bool) :
    (markBits bits idxs).length = bits.length := by
  induction idxs generalizing bits with
  | nil => rfl
  | cons i rest ih => rw [markBits_cons, ih, List.length_set]

theorem markBits_getElem? (idxs : List Nat) (bits : List Bool) (k : Nat) :
    (markBits bits idxs)[k]? = (bits[k]?).map (fun b => b || decide (k ∈ idxs)) := by
  induction idxs generalizing bits with
  | nil =>
    rw [markBits_nil]
    cases bits[k]? <;> simp
  | cons i rest ih =>
    rw [markBits_cons, ih]
    by_cases hik : i = k
    · subst hik
      rw [List.getElem?_set]
      simp only [if_pos rfl]
      by_cases hk : i < bits.length
      · rw [if_pos hk, List.getElem?_eq_getElem hk]
        simp
      · rw [if_neg hk, List.getElem?_eq_none (Nat.le_of_not_lt hk)]
        simp
    · rw [List.getElem?_set_ne hik]
      cases bits[k]? <;> simp [List.mem_cons, Ne.symm hik]

/-! ### Characterizing a successful level insert/query -/

theorem BloomLevel.insert_eq_markBits (item : Str) (asz : Nat)
    (hfs : List HashFunction) (lv : BloomLevel)
    (hpos : 0 < asz) (hlen : lv.bit_array.length = asz) :
    lv.insert item hfs asz = some ⟨markBits lv.bit_array (hashIdxs hfs item asz)⟩ := by
  induction hfs generalizing lv with
  | nil =>
    cases lv
    simp [BloomLevel.insert, hashIdxs, markBits_nil]
  | cons hf rest ih =>
    have hne : asz ≠ 0 := Nat.pos_iff_ne_zero.mp hpos
    have hlt : hf.hash item % asz < lv.bit_array.length := by
      rw [hlen]
      exact Nat.mod_lt _ hpos
    rw [BloomLevel.insert, if_neg hne]
    simp only
    rw [if_pos hlt]
    rw [ih ⟨lv.bit_array.set (hf.hash item % asz) true⟩ (by simpa using hlen)]
    rfl

theorem BloomLevel.query_eq_all (item : Str) (asz : Nat)
    (hfs : List HashFunction) (lv : BloomLevel)
    (hpos : 0 < asz) (hlen : lv.bit_array.length = asz) :
    lv.query item hfs asz =
      some (hfs.all fun hf => lv.bit_array.getD (hf.hash item % asz) false) := by
  induction hfs with
  | nil => rfl
  | cons hf rest ih =>
    have hne : asz ≠ 0 := Nat.pos_iff_ne_zero.mp hpos
    have hlt : hf.hash item % asz < lv.bit_array.length := by
      rw [hlen]
      exact Nat.mod_lt _ hpos
    rw [BloomLevel.query, if_neg hne]
    simp only
    rw [List.getElem?_eq_getElem hlt]
    simp only [List.all_cons, List.getD_eq_getElem?_getD, List.getElem?_eq_getElem hlt,
      Option.getD_some]
    by_cases hb : lv.bit_array[hf.hash item % asz] = true
    · rw [if_pos hb, hb, Bool.true_and, ih]
      simp [List.getD_eq_getElem?_getD]
    · rw [if_neg hb]
      rw [Bool.not_eq_true] at hb
      rw [hb, Bool.false_and]

theorem queryLevels_eq_any (item : Str) (hfs : List HashFunction) (asz : Nat)
    (ls : List BloomLevel) (hpos : 0 < asz)
    (hlen : ∀ lv ∈ ls, lv.bit_array.length = asz) :
    queryLevels item hfs asz ls =
      some (ls.any fun lv =>
        hfs.all fun hf => lv.bit_array.getD (hf.hash item % asz) false) := by
  induction ls with
  | nil => rfl
  | cons lv rest ih =>
    have hq := BloomLevel.query_eq_all item asz hfs lv hpos (hlen lv (List.mem_cons_self lv rest))
    have hr := ih fun lv2 h2 => hlen lv2 (List.mem_cons_of_mem lv h2)
    rw [queryLevels, hq, List.any_cons]
    cases hc : (hfs.all fun hf => lv.bit_array.getD (hf.hash item % asz) false) with
    | true => rw [Bool.true_or]
    | false =>
      rw [Bool.false_or]
      exact hr

theorem insertLevels_eq_map (item : Str) (hfs : List HashFunction) (asz : Nat)
    (ls : List BloomLevel) (hpos : 0 < asz)
    (hlen : ∀ lv ∈ ls, lv.bit_array.length = asz) :
    insertLevels item hfs asz ls =
      some (ls.map fun lv => ⟨markBits lv.bit_array (hashIdxs hfs item asz)⟩) := by
  induction ls with
  | nil => rfl
  | cons lv rest ih =>
    rw [insertLevels,
      BloomLevel.insert_eq_markBits item asz hfs lv hpos (hlen lv (List.mem_cons_self lv rest)),
      ih fun lv2 h2 => hlen lv2 (List.mem_cons_of_mem lv h2)]
    rfl

/-! ### Filter-level characterizations -/

theorem BloomFilter.insert_eq (bf : BloomFilter) (item : Str)
    (hpos : 0 < bf.array_size) (hwf : bf.Wf) :
    bf.insert item =
      some { bf with levels := bf.levels.map (markLevel bf.hash_functions item bf.array_size) } := by
  rw [BloomFilter.insert,
    insertLevels_eq_map item bf.hash_functions bf.array_size bf.levels hpos hwf]
  rfl

theorem BloomFilter.query_eq (bf : BloomFilter) (item : Str) (n : Nat)
    (hpos : 0 < bf.array_size) (hwf : bf.Wf) :
    bf.query item n = some ((bf.levels.take (min n bf.levels.length)).any
      fun lv => bf.hash_functions.all
        fun hf => lv.bit_array.getD (hf.hash item % bf.array_size) false) := by
  rw [BloomFilter.query]
  exact queryLevels_eq_any item bf.hash_functions bf.array_size _ hpos
    fun lv h => hwf lv (List.take_subset _ _ h)

theorem getD_false_eq_true_iff (bits : List Bool) (k : Nat) :
    (bits.getD k false = true) ↔ bits[k]? = some true := by
  rw [List.getD_eq_getElem?_getD]
  cases h : bits[k]? with
  | none => simp
  | some b => simp

/-! ### `levelHas`: established by inserting the item, preserved by later inserts -/

theorem levelHas_markBits_self (hfs : List HashFunction) (asz : Nat) (item : Str)
    (bits : List Bool) (hpos : 0 < asz) (hlen : bits.length = asz) :
    levelHas hfs asz item ⟨markBits bits (hashIdxs hfs item asz)⟩ := by
  intro hf hmem
  have hk : hf.hash item % asz < bits.length := by
    rw [hlen]
    exact Nat.mod_lt _ hpos
  have hmem2 : hf.hash item % asz ∈ hashIdxs hfs item asz :=
    List.mem_map_of_mem (fun g => g.hash item % asz) hmem
  show (markBits bits (hashIdxs hfs item asz)).getD (hf.hash item % asz) false = true
  rw [getD_false_eq_true_iff, markBits_getElem?, List.getElem?_eq_getElem hk]
  simp [hmem2]

theorem levelHas_markBits_mono (hfs : List HashFunction) (asz : Nat) (item : Str)
    (bits : List Bool) (idxs : List Nat) (h : levelHas hfs asz item ⟨bits⟩) :
    levelHas hfs asz item ⟨markBits bits idxs⟩ := by
  intro hf hmem
  have h2 := h hf hmem
  show (markBits bits idxs).getD (hf.hash item % asz) false = true
  rw [getD_false_eq_true_iff] at h2 ⊢
  rw [markBits_getElem?, h2]
  simp

/-! ### Unfolding `insertMany` -/

theorem insertMany_nil (bf : BloomFilter) : bf.insertMany [] = some bf := rfl

theorem foldl_insert_none (items : List Str) :
    items.foldl (fun (acc : Option BloomFilter) it =>
      acc.bind (fun b => b.insert it)) none = none := by
  induction items with
  | nil => rfl
  | cons it rest ih =>
    rw [List.foldl_cons]
    exact ih

theorem insertMany_cons (bf : BloomFilter) (it : Str) (rest : List Str) :
    bf.insertMany (it :: rest) = (bf.insert it).bind fun b1 => b1.insertMany rest := by
  rw [BloomFilter.insertMany, List.foldl_cons]
  show List.foldl _ ((some bf).bind fun b => b.insert it) rest = _
  rw [Option.some_bind]
  cases h : bf.insert it with
  | none => exact foldl_insert_none rest
  | some b1 => rfl

/-- The invariant maintained by a sequence of inserts: sizes and the
hash-function family are unchanged, well-formedness is preserved, and every
level carries the bits of `x` as soon as `x` was inserted (or already held). -/
theorem insertMany_spec (x : Str) (items : List Str) :
    ∀ bf bf2 : BloomFilter, 0 < bf.array_size → bf.Wf →
    bf.insertMany items = some bf2 →
    bf2.array_size = bf.array_size ∧ bf2.hash_functions = bf.hash_functions ∧
    bf2.levels.length = bf.levels.length ∧ bf2.Wf ∧
    ((x ∈ items ∨ ∀ lv ∈ bf.levels, levelHas bf.hash_functions bf.array_size x lv) →
      ∀ lv ∈ bf2.levels, levelHas bf.hash_functions bf.array_size x lv) := by
  induction items with
  | nil =>
    intro bf bf2 hpos hwf hrun
    rw [insertMany_nil, Option.some_inj] at hrun
    subst hrun
    refine ⟨rfl, rfl, rfl, hwf, ?_⟩
    intro hcase
    cases hcase with
    | inl h => exact absurd h (List.not_mem_nil x)
    | inr h => exact h
  | cons it rest ih =>
    intro bf bf2 hpos hwf hrun
    rw [insertMany_cons, BloomFilter.insert_eq bf it hpos hwf, Option.some_bind] at hrun
    set bf1 : BloomFilter :=
      { bf with levels := bf.levels.map (markLevel bf.hash_functions it bf.array_size) }
      with hbf1
    have hwf1 : bf1.Wf := by
      intro lv hlv
      rw [hbf1] at hlv ⊢
      simp only [List.mem_map] at hlv
      obtain ⟨lv0, hlv0, rfl⟩ := hlv
      show (markBits lv0.bit_array _).length = bf.array_size
      rw [markBits_length]
      exact hwf lv0 hlv0
    have hpos1 : 0 < bf1.array_size := hpos
    obtain ⟨ha, hh, hl, hw, hx⟩ := ih bf1 bf2 hpos1 hwf1 hrun
    refine ⟨ha, hh, ?_, hw, ?_⟩
    · rw [hl, hbf1]
      exact List.length_map _ _
    · intro hcase
    -- every level of bf1 already carries the bits of x in the two
    -- interesting cases; then the inductive hypothesis transports them
    -- through the remaining inserts
      have hstep : (x = it ∨ (∀ lv ∈ bf.levels, levelHas bf.hash_functions bf.array_size x lv)) →
          ∀ lv ∈ bf1.levels, levelHas bf.hash_functions bf.array_size x lv := by
        intro hc lv hlv
        rw [hbf1] at hlv
        simp only [List.mem_map] at hlv
        obtain ⟨lv0, hlv0, rfl⟩ := hlv
        cases hc with
        | inl hxit =>
          subst hxit
          exact levelHas_markBits_self bf.hash_functions bf.array_size x lv0.bit_array hpos
            (hwf lv0 hlv0)
        | inr hall =>
          have := hall lv0 hlv0
          exact levelHas_markBits_mono bf.hash_functions bf.array_size x lv0.bit_array _
            (by cases lv0 with | mk bits => exact this)
      cases hcase with
      | inl hmem =>
        rw [List.mem_cons] at hmem
        cases hmem with
        | inl hxit => exact hx (Or.inr (hstep (Or.inl hxit)))
        | inr hxrest => exact hx (Or.inl hxrest)
      | inr hall => exact hx (Or.inr (hstep (Or.inr hall)))

/-! ### Facts about construction -/

theorem new_ok_dest (num_levels array_size num_hash_functions : Nat) (bf0 : BloomFilter)
    (hnew : BloomFilter.new num_levels array_size num_hash_functions = .ok bf0) :
    bf0.array_size = array_size ∧ bf0.levels.length = num_levels ∧ bf0.Wf := by
  rw [BloomFilter.new] at hnew
  split at hnew
  · exact Except.noConfusion hnew
  · have h := Except.ok.inj hnew
    subst h
    refine ⟨rfl, ?_, ?_⟩
    · show ((List.range num_levels).map _).length = num_levels
      rw [List.length_map, List.length_range]
    · intro lv hlv
      simp only [List.mem_map] at hlv
      obtain ⟨i, hi, rfl⟩ := hlv
      show (List.replicate array_size false).length = array_size
      exact List.length_replicate _ _

/-- C1: for every non-empty string `x`, every filter successfully constructed
with `array_size > 0`, and every sequence of inserts that includes
`insert(x)`, `query(x, n)` returns `true` (and does not panic) for every `n`
in `[1, num_levels]`. -/
theorem noFalseNegatives (num_levels array_size num_hash_functions : Nat)
    (items : List Str) (x : Str) (n : Nat) (bf0 bf : BloomFilter)
    (hnew : BloomFilter.new num_levels array_size num_hash_functions = .ok bf0)
    (hpos : 0 < array_size) (_hx : x ≠ [])
    (hrun : bf0.insertMany items = some bf) (hmem : x ∈ items)
    (h1 : 1 ≤ n) (h2 : n ≤ num_levels) :
    bf.query x n = some true := by
  obtain ⟨ha0, hl0, hwf0⟩ := new_ok_dest num_levels array_size num_hash_functions bf0 hnew
  have hpos0 : 0 < bf0.array_size := ha0 ▸ hpos
  obtain ⟨ha, hh, hl, hwf, hhas⟩ := insertMany_spec x items bf0 bf hpos0 hwf0 hrun
  have hall := hhas (Or.inl hmem)
  have hposbf : 0 < bf.array_size := ha ▸ hpos0
  rw [BloomFilter.query_eq bf x n hposbf hwf]
  have hlen : bf.levels.length = num_levels := hl.trans hl0
  have hmin : min n bf.levels.length = n := by
    rw [hlen]
    exact Nat.min_eq_left h2
  have htk : 0 < (bf.levels.take (min n bf.levels.length)).length := by
    rw [List.length_take, hmin, Nat.min_eq_left (hlen ▸ h2)]
    exact h1
  obtain ⟨lv, hlv⟩ := List.exists_mem_of_length_pos htk
  have hlv2 : lv ∈ bf.levels := List.take_subset _ _ hlv
  have hlvhas := hall lv hlv2
  rw [Option.some_inj, List.any_eq_true]
  refine ⟨lv, hlv, ?_⟩
  rw [List.all_eq_true]
  intro hf hmem2
  have := hlvhas hf (hh ▸ hmem2)
  rw [ha]
  exact this

theorem noFalseNegatives_witness :
    BloomFilter.query ⟨[⟨[true, false]⟩], [⟨31⟩], 2⟩ [(116 : Fin 256)] 1 = some true :=
  noFalseNegatives 1 2 1 [[(116 : Fin 256)]] [(116 : Fin 256)] 1
    ⟨[⟨[false, false]⟩], [⟨31⟩], 2⟩ ⟨[⟨[true, false]⟩], [⟨31⟩], 2⟩
    (by decide) (by decide) (by decide) (by decide) (by decide) (by decide) (by decide)

/-- C2: `Filter::new` fails exactly when `num_hash_functions` exceeds the
pool size 10, reporting requested and available counts; on success the
hash functions are the first `num_hash_functions` pool multipliers in pool
order and the levels are `num_levels` all-false arrays of length
`array_size`; zero parameters are not rejected. -/
theorem constructionSpec (num_levels array_size num_hash_functions : Nat) :
    multipliers.length = 10 ∧
    (10 < num_hash_functions →
      BloomFilter.new num_levels array_size num_hash_functions =
        .error (.InvalidHashFunctions num_hash_functions 10)) ∧
    (num_hash_functions ≤ 10 →
      BloomFilter.new num_levels array_size num_hash_functions =
        .ok ⟨List.replicate num_levels ⟨List.replicate array_size false⟩,
          (multipliers.take num_hash_functions).map HashFunction.new, array_size⟩) := by
  refine ⟨rfl, ?_, ?_⟩
  · intro h
    rw [BloomFilter.new, if_pos (show num_hash_functions > multipliers.length from h)]
    rfl
  · intro h
    rw [BloomFilter.new,
      if_neg (show ¬num_hash_functions > multipliers.length from Nat.not_lt.mpr h)]
    have hlv : (List.range num_levels).map (fun _ => BloomLevel.new array_size) =
        List.replicate num_levels ⟨List.replicate array_size false⟩ := by
      rw [List.map_const', List.length_range]
      rfl
    rw [hlv]

theorem constructionSpec_witness :
    BloomFilter.new 3 5 11 = .error (.InvalidHashFunctions 11 10) ∧
    BloomFilter.new 2 3 1 =
      .ok ⟨List.replicate 2 ⟨List.replicate 3 false⟩,
        (multipliers.take 1).map HashFunction.new, 3⟩ ∧
    BloomFilter.new 0 0 0 =
      .ok ⟨List.replicate 0 ⟨List.replicate 0 false⟩,
        (multipliers.take 0).map HashFunction.new, 0⟩ :=
  ⟨(constructionSpec 3 5 11).2.1 (by decide),
   (constructionSpec 2 3 1).2.2 (by decide),
   (constructionSpec 0 0 0).2.2 (by decide)⟩

/-- C3: with `array_size > 0` (and the structural invariant construction
establishes), `query` clamps the level count to
`min(num_levels_to_search, levels.length)` and never errors; it reports
`true` iff some searched level reports `true`, and a level reports `true`
iff every index `hash(item) % array_size` holds a set flag. -/
theorem querySemantics (bf : BloomFilter) (item : Str) (n : Nat)
    (hpos : 0 < bf.array_size) (hwf : bf.Wf) :
    bf.query item n = some ((bf.levels.take (min n bf.levels.length)).any
      (fun lv => bf.hash_functions.all
        (fun hf => lv.bit_array.getD (hf.hash item % bf.array_size) false))) ∧
    (∀ lv ∈ bf.levels, lv.query item bf.hash_functions bf.array_size =
      some (bf.hash_functions.all
        (fun hf => lv.bit_array.getD (hf.hash item % bf.array_size) false))) :=
  ⟨BloomFilter.query_eq bf item n hpos hwf,
   fun lv hlv => BloomLevel.query_eq_all item bf.array_size bf.hash_functions lv hpos (hwf lv hlv)⟩

theorem querySemantics_witness :
    BloomFilter.query ⟨[⟨[false, true]⟩, ⟨[true, true]⟩], [⟨31⟩], 2⟩ [(116 : Fin 256)] 7 =
      some true :=
  ((querySemantics ⟨[⟨[false, true]⟩, ⟨[true, true]⟩], [⟨31⟩], 2⟩ [(116 : Fin 256)] 7
    (by decide) (by decide)).1).trans (by decide)

theorem queryLevels_take_mono (item : Str) (hfs : List HashFunction) (asz : Nat) :
    ∀ (ls : List BloomLevel) (a b : Nat), a ≤ b →
    queryLevels item hfs asz (ls.take a) = some true →
    queryLevels item hfs asz (ls.take b) = some true := by
  intro ls
  induction ls with
  | nil =>
    intro a b _ h
    rw [List.take_nil] at h ⊢
    exact h
  | cons lv rest ih =>
    intro a b hab h
    cases a with
    | zero =>
      rw [List.take_zero] at h
      exact absurd h (by simp [queryLevels])
    | succ a2 =>
      cases b with
      | zero => exact absurd hab (by omega)
      | succ b2 =>
        rw [List.take_succ_cons] at h ⊢
        rw [queryLevels] at h ⊢
        cases hq : lv.query item hfs asz with
        | none =>
          rw [hq] at h
          exact absurd h (by simp)
        | some bb =>
          rw [hq] at h
          cases bb with
          | true => exact h
          | false => exact ih a2 b2 (by omega) h

/-- C6: `query` is monotone in the number of searched levels — a `true`
answer for `n` stays `true` for any `n2 > n`. -/
theorem queryMonotone (bf : BloomFilter) (item : Str) (n n2 : Nat)
    (_hpos : 0 < bf.array_size) (hlt : n < n2)
    (h : bf.query item n = some true) : bf.query item n2 = some true := by
  rw [BloomFilter.query] at h ⊢
  exact queryLevels_take_mono item bf.hash_functions bf.array_size bf.levels _ _
    (min_le_min (Nat.le_of_lt hlt) (le_refl _)) h

theorem queryMonotone_witness :
    BloomFilter.query ⟨[⟨[true]⟩, ⟨[false]⟩], [⟨31⟩], 1⟩ [(116 : Fin 256)] 2 = some true :=
  queryMonotone ⟨[⟨[true]⟩, ⟨[false]⟩], [⟨31⟩], 1⟩ [(116 : Fin 256)] 1 2
    (by decide) (by decide) (by decide)

/-! ### The hash algorithm -/

theorem hash_foldl_congr (m : Nat) (s : Str) : ∀ h : Nat,
    s.foldl (fun a b => (a * m % usizeSize + b.val) % usizeSize) h =
    s.foldl (fun a b => (a * m + b.val) % usizeSize) h := by
  induction s with
  | nil => intro h; rfl
  | cons b rest ih =>
    intro h
    rw [List.foldl_cons, List.foldl_cons, Nat.mod_add_mod, ih]

theorem hash_foldl_lt (m : Nat) (s : Str) : ∀ h : Nat, h < usizeSize →
    s.foldl (fun a b => (a * m % usizeSize + b.val) % usizeSize) h < usizeSize := by
  have hM : 0 < usizeSize := by
    rw [usizeSize]
    exact pow_pos (by omega) 64
  induction s with
  | nil => intro h hh; exact hh
  | cons b rest ih =>
    intro h _
    rw [List.foldl_cons]
    exact ih _ (Nat.mod_lt _ hM)

/-- C5: `HashFunction::hash` is exactly the left-to-right fold
`acc ↦ (acc × multiplier + byte) mod 2 ^ 64` over the byte sequence, starting
from 0, and its value stays below the word size. It is a pure function of
the item and the multiplier (determinism and absence of side effects are
inherent in the embedding). -/
theorem hashAlgorithm (hf : HashFunction) (s : Str) :
    hf.hash s = hashSpecFold hf.multiplier s ∧ hf.hash s < usizeSize :=
  ⟨hash_foldl_congr hf.multiplier s 0,
   hash_foldl_lt hf.multiplier s 0 (by rw [usizeSize]; exact pow_pos (by omega) 64)⟩

/-! ### Idempotence and hash-order irrelevance of insertion -/

theorem markBits_idem (bits : List Bool) (idxs : List Nat) :
    markBits (markBits bits idxs) idxs = markBits bits idxs := by
  apply List.ext_getElem?
  intro k
  rw [markBits_getElem?, markBits_getElem?]
  cases h : bits[k]? with
  | none => rfl
  | some b => simp [Bool.or_assoc]

theorem markBits_perm (bits : List Bool) {idxs1 idxs2 : List Nat}
    (hp : idxs1.Perm idxs2) : markBits bits idxs1 = markBits bits idxs2 := by
  apply List.ext_getElem?
  intro k
  rw [markBits_getElem?, markBits_getElem?]
  have hmem : decide (k ∈ idxs1) = decide (k ∈ idxs2) := decide_eq_decide.mpr hp.mem_iff
  rw [hmem]

theorem markLevel_markLevel (hfs : List HashFunction) (item : Str) (asz : Nat)
    (lv : BloomLevel) :
    markLevel hfs item asz (markLevel hfs item asz lv) = markLevel hfs item asz lv := by
  simp only [markLevel, markBits_idem]

theorem markLevel_perm {hfs1 hfs2 : List HashFunction} (item : Str) (asz : Nat)
    (lv : BloomLevel) (hp : hfs1.Perm hfs2) :
    markLevel hfs1 item asz lv = markLevel hfs2 item asz lv := by
  have hpidx : (hashIdxs hfs1 item asz).Perm (hashIdxs hfs2 item asz) := by
    rw [hashIdxs, hashIdxs]
    exact hp.map fun hf => hf.hash item % asz
  rw [markLevel, markLevel, markBits_perm lv.bit_array hpidx]

/-- C7: with `array_size > 0` (and the structural invariant), inserting an
item twice leaves exactly the state of inserting it once, and permuting the
hash-function family does not change the bit-array state an insert
produces. -/
theorem insertIdempotent :
    (∀ (bf bf2 : BloomFilter) (item : Str), 0 < bf.array_size → bf.Wf →
      bf.insert item = some bf2 → bf2.insert item = some bf2) ∧
    (∀ (levels : List BloomLevel) (hfs1 hfs2 : List HashFunction) (asz : Nat) (item : Str),
      0 < asz → (∀ lv ∈ levels, lv.bit_array.length = asz) → hfs1.Perm hfs2 →
      ((BloomFilter.mk levels hfs1 asz).insert item).map BloomFilter.levels =
        ((BloomFilter.mk levels hfs2 asz).insert item).map BloomFilter.levels) := by
  constructor
  · intro bf bf2 item hpos hwf hins
    rw [BloomFilter.insert_eq bf item hpos hwf, Option.some_inj] at hins
    subst hins
    have hwf2 : BloomFilter.Wf
        { bf with levels := bf.levels.map (markLevel bf.hash_functions item bf.array_size) } := by
      intro lv hlv
      simp only [List.mem_map] at hlv
      obtain ⟨lv0, hlv0, rfl⟩ := hlv
      show (markBits lv0.bit_array _).length = bf.array_size
      rw [markBits_length]
      exact hwf lv0 hlv0
    have h2 := BloomFilter.insert_eq
      { bf with levels := bf.levels.map (markLevel bf.hash_functions item bf.array_size) }
      item hpos hwf2
    rw [h2, Option.some_inj]
    have hmapeq : (bf.levels.map (markLevel bf.hash_functions item bf.array_size)).map
        (markLevel bf.hash_functions item bf.array_size) =
        bf.levels.map (markLevel bf.hash_functions item bf.array_size) := by
      rw [List.map_map]
      apply List.map_congr_left
      intro lv _
      exact markLevel_markLevel bf.hash_functions item bf.array_size lv
    show BloomFilter.mk
        ((bf.levels.map (markLevel bf.hash_functions item bf.array_size)).map
          (markLevel bf.hash_functions item bf.array_size))
        bf.hash_functions bf.array_size =
      BloomFilter.mk (bf.levels.map (markLevel bf.hash_functions item bf.array_size))
        bf.hash_functions bf.array_size
    rw [hmapeq]
  · intro levels hfs1 hfs2 asz item hpos hlen hperm
    rw [BloomFilter.insert_eq (BloomFilter.mk levels hfs1 asz) item hpos hlen,
      BloomFilter.insert_eq (BloomFilter.mk levels hfs2 asz) item hpos hlen]
    show some (levels.map (markLevel hfs1 item asz)) = some (levels.map (markLevel hfs2 item asz))
    rw [Option.some_inj]
    apply List.map_congr_left
    intro lv _
    exact markLevel_perm item asz lv hperm

theorem insertIdempotent_witness :
    (BloomFilter.insert ⟨[⟨[true, false]⟩], [⟨31⟩], 2⟩ [(116 : Fin 256)] =
      some ⟨[⟨[true, false]⟩], [⟨31⟩], 2⟩) ∧
    ((BloomFilter.insert ⟨[⟨[false, false, false]⟩], [⟨31⟩, ⟨37⟩], 3⟩
        [(116 : Fin 256)]).map BloomFilter.levels =
      (BloomFilter.insert ⟨[⟨[false, false, false]⟩], [⟨37⟩, ⟨31⟩], 3⟩
        [(116 : Fin 256)]).map BloomFilter.levels) :=
  ⟨insertIdempotent.1 ⟨[⟨[false, false]⟩], [⟨31⟩], 2⟩ ⟨[⟨[true, false]⟩], [⟨31⟩], 2⟩
      [(116 : Fin 256)] (by decide) (by decide) (by decide),
   insertIdempotent.2 [⟨[false, false, false]⟩] [⟨31⟩, ⟨37⟩] [⟨37⟩, ⟨31⟩] 3
      [(116 : Fin 256)] (by decide) (by decide) (by decide)⟩

/-! ### Bits only grow -/

theorem level_insert_preserves (item : Str) (asz : Nat) :
    ∀ (hfs : List HashFunction) (lv lv2 : BloomLevel),
    lv.insert item hfs asz = some lv2 →
    lv2.bit_array.length = lv.bit_array.length ∧
    ∀ k : Nat, lv.bit_array[k]? = some true → lv2.bit_array[k]? = some true := by
  intro hfs
  induction hfs with
  | nil =>
    intro lv lv2 h
    rw [BloomLevel.insert, Option.some_inj] at h
    subst h
    exact ⟨rfl, fun _ hk => hk⟩
  | cons hf rest ih =>
    intro lv lv2 h
    rw [BloomLevel.insert] at h
    by_cases h0 : asz = 0
    · rw [if_pos h0] at h
      exact Option.noConfusion h
    · rw [if_neg h0] at h
      simp only at h
      by_cases hlt : hf.hash item % asz < lv.bit_array.length
      · rw [if_pos hlt] at h
        obtain ⟨hl, hmono⟩ := ih ⟨lv.bit_array.set (hf.hash item % asz) true⟩ lv2 h
        refine ⟨by rw [hl]; exact List.length_set .., ?_⟩
        intro k hk
        apply hmono
        show (lv.bit_array.set (hf.hash item % asz) true)[k]? = some true
        rw [List.getElem?_set]
        by_cases hik : hf.hash item % asz = k
        · rw [if_pos hik, if_pos (hik ▸ hlt)]
        · rw [if_neg hik]
          exact hk
      · rw [if_neg hlt] at h
        exact Option.noConfusion h

theorem insertLevels_mono (item : Str) (hfs : List HashFunction) (asz : Nat) :
    ∀ (ls ls2 : List BloomLevel), insertLevels item hfs asz ls = some ls2 →
    ls2.length = ls.length ∧
    (∀ i : Nat, (ls2[i]?).map (fun lv : BloomLevel => lv.bit_array.length) =
      (ls[i]?).map (fun lv : BloomLevel => lv.bit_array.length)) ∧
    (∀ i k : Nat, ((ls[i]?).bind fun lv : BloomLevel => lv.bit_array[k]?) = some true →
      ((ls2[i]?).bind fun lv : BloomLevel => lv.bit_array[k]?) = some true) := by
  intro ls
  induction ls with
  | nil =>
    intro ls2 h
    rw [insertLevels, Option.some_inj] at h
    subst h
    exact ⟨rfl, fun _ => rfl, fun _ _ hk => hk⟩
  | cons lv rest ih =>
    intro ls2 h
    rw [insertLevels] at h
    cases h1 : lv.insert item hfs asz with
    | none =>
      rw [h1] at h
      exact Option.noConfusion h
    | some lv2 =>
      rw [h1] at h
      cases h2 : insertLevels item hfs asz rest with
      | none =>
        rw [h2] at h
        exact Option.noConfusion h
      | some rest2 =>
        rw [h2] at h
        simp only at h
        rw [Option.some_inj] at h
        subst h
        obtain ⟨hlen1, hmono1⟩ := level_insert_preserves item asz hfs lv lv2 h1
        obtain ⟨hlen2, hsz2, hmono2⟩ := ih rest2 h2
        refine ⟨by rw [List.length_cons, List.length_cons, hlen2], ?_, ?_⟩
        · intro i
          cases i with
          | zero => simpa using hlen1
          | succ i2 => simpa using hsz2 i2
        · intro i k hk
          cases i with
          | zero =>
            simp only [List.getElem?_cons_zero, Option.some_bind] at hk ⊢
            exact hmono1 k hk
          | succ i2 =>
            simp only [List.getElem?_cons_succ] at hk ⊢
            exact hmono2 i2 k hk

theorem filter_insert_preserves (bf bf2 : BloomFilter) (item : Str)
    (h : bf.insert item = some bf2) :
    bf2.hash_functions = bf.hash_functions ∧ bf2.array_size = bf.array_size ∧
    bf2.levels.length = bf.levels.length ∧
    (∀ i : Nat, (bf2.levels[i]?).map (fun lv : BloomLevel => lv.bit_array.length) =
      (bf.levels[i]?).map (fun lv : BloomLevel => lv.bit_array.length)) ∧
    (∀ i k : Nat, ((bf.levels[i]?).bind fun lv : BloomLevel => lv.bit_array[k]?) = some true →
      ((bf2.levels[i]?).bind fun lv : BloomLevel => lv.bit_array[k]?) = some true) := by
  rw [BloomFilter.insert] at h
  cases h1 : insertLevels item bf.hash_functions bf.array_size bf.levels with
  | none =>
    rw [h1] at h
    exact Option.noConfusion h
  | some ls2 =>
    rw [h1] at h
    rw [Option.map_some', Option.some_inj] at h
    subst h
    obtain ⟨hl, hsz, hmono⟩ := insertLevels_mono item bf.hash_functions bf.array_size bf.levels ls2 h1
    exact ⟨rfl, rfl, hl, hsz, hmono⟩

/-- C9: across any sequence of inserts (queries and saves are pure and touch
no state in this embedding), the number of levels and every bit array's
length are unchanged, and a flag that is `true` is never reset — the set of
set flags only grows. -/
theorem bitsMonotone (items : List Str) :
    ∀ (bf bf2 : BloomFilter), bf.insertMany items = some bf2 →
    bf2.hash_functions = bf.hash_functions ∧ bf2.array_size = bf.array_size ∧
    bf2.levels.length = bf.levels.length ∧
    (∀ i : Nat, (bf2.levels[i]?).map (fun lv : BloomLevel => lv.bit_array.length) =
      (bf.levels[i]?).map (fun lv : BloomLevel => lv.bit_array.length)) ∧
    (∀ i k : Nat, ((bf.levels[i]?).bind fun lv : BloomLevel => lv.bit_array[k]?) = some true →
      ((bf2.levels[i]?).bind fun lv : BloomLevel => lv.bit_array[k]?) = some true) := by
  induction items with
  | nil =>
    intro bf bf2 h
    rw [insertMany_nil, Option.some_inj] at h
    subst h
    exact ⟨rfl, rfl, rfl, fun _ => rfl, fun _ _ hk => hk⟩
  | cons it rest ih =>
    intro bf bf2 h
    rw [insertMany_cons] at h
    cases h1 : bf.insert it with
    | none =>
      rw [h1] at h
      exact Option.noConfusion h
    | some bf1 =>
      rw [h1, Option.some_bind] at h
      obtain ⟨hh1, ha1, hl1, hsz1, hmono1⟩ := filter_insert_preserves bf bf1 it h1
      obtain ⟨hh2, ha2, hl2, hsz2, hmono2⟩ := ih bf1 bf2 h
      refine ⟨hh2.trans hh1, ha2.trans ha1, hl2.trans hl1, ?_, ?_⟩
      · intro i
        rw [hsz2 i, hsz1 i]
      · intro i k hk
        exact hmono2 i k (hmono1 i k hk)

theorem bitsMonotone_witness :
    (BloomFilter.levels ⟨[⟨[true, true]⟩], [⟨31⟩], 2⟩).length =
        (BloomFilter.levels ⟨[⟨[true, false]⟩], [⟨31⟩], 2⟩).length ∧
    ((BloomFilter.levels ⟨[⟨[true, true]⟩], [⟨31⟩], 2⟩)[0]?).bind
        (fun lv : BloomLevel => lv.bit_array[0]?) = some true :=
  ⟨((bitsMonotone [[(117 : Fin 256)]] ⟨[⟨[true, false]⟩], [⟨31⟩], 2⟩
      ⟨[⟨[true, true]⟩], [⟨31⟩], 2⟩ (by decide)).2.2.1),
   (bitsMonotone [[(117 : Fin 256)]] ⟨[⟨[true, false]⟩], [⟨31⟩], 2⟩
      ⟨[⟨[true, true]⟩], [⟨31⟩], 2⟩ (by decide)).2.2.2.2 0 0 (by decide)⟩

/-- C10: with `array_size > 0` every computed index `hash(item) % array_size`
is strictly below the bit-array length established by construction, so level
insert and query never reach the panic branch; with `array_size = 0` and at
least one hash function the modulo panics (modelled as `none`). -/
theorem inBoundsSafety :
    (∀ (hf : HashFunction) (item : Str) (asz : Nat), 0 < asz →
      hf.hash item % asz < asz) ∧
    (∀ (lv : BloomLevel) (item : Str) (hfs : List HashFunction) (asz : Nat),
      0 < asz → lv.bit_array.length = asz →
      (lv.insert item hfs asz).isSome ∧ (lv.query item hfs asz).isSome) ∧
    (∀ (lv : BloomLevel) (item : Str) (hf : HashFunction) (hfs : List HashFunction),
      lv.insert item (hf :: hfs) 0 = none ∧ lv.query item (hf :: hfs) 0 = none) := by
  refine ⟨?_, ?_, ?_⟩
  · intro hf item asz hpos
    exact Nat.mod_lt _ hpos
  · intro lv item hfs asz hpos hlen
    constructor
    · rw [BloomLevel.insert_eq_markBits item asz hfs lv hpos hlen]
      rfl
    · rw [BloomLevel.query_eq_all item asz hfs lv hpos hlen]
      rfl
  · intro lv item hf hfs
    exact ⟨rfl, rfl⟩

theorem inBoundsSafety_witness :
    HashFunction.hash ⟨31⟩ [(116 : Fin 256)] % 2 < 2 ∧
    (BloomLevel.insert ⟨[false, false]⟩ [(116 : Fin 256)] [⟨31⟩] 2).isSome ∧
    BloomLevel.query ⟨[false, false]⟩ [(116 : Fin 256)] [⟨31⟩] 0 = none :=
  ⟨inBoundsSafety.1 ⟨31⟩ [(116 : Fin 256)] 2 (by decide),
   (inBoundsSafety.2.1 ⟨[false, false]⟩ [(116 : Fin 256)] [⟨31⟩] 2 (by decide) (by decide)).1,
   (inBoundsSafety.2.2 ⟨[false, false]⟩ [(116 : Fin 256)] ⟨31⟩ []).2⟩

/-! ### Persistence: the serialized snapshot

`save_to_file`/`load_from_file` delegate to `serde_json` with derived
`Serialize`/`Deserialize` implementations; that derived code is not part of
the repository's sources, so the snapshot codec below is modelled from the
spec (§6 "Persisted snapshot format"). -/

/-- JSON-like value tree: the serde_json data model restricted to what the
snapshot format uses. -/
inductive Json where
  | bool (b : Bool) : Json
  | num (n : Nat) : Json
  | str (s : String) : Json
  | arr (xs : List Json) : Json
  | obj (fields : List (String × Json)) : Json

/-- First binding of `key` in a JSON object's field list. -/
def jLookup (fields : List (String × Json)) (key : String) : Option Json :=
  match fields with
  | [] => none
  | (k, v) :: rest => if k = key then some v else jLookup rest key

/-- Modelled from the spec: the encoding of one level, an object holding a
`bit_array` of booleans (the derived `Serialize` for `BloomLevel`). -/
def encodeLevel (lv : BloomLevel) : Json :=
  .obj [("bit_array", .arr (lv.bit_array.map Json.bool))]

/-- Modelled from the spec: the encoding of one hash function, an object
holding one integer `multiplier`. -/
def encodeHashFunction (hf : HashFunction) : Json :=
  .obj [("multiplier", .num hf.multiplier)]

/-- Modelled from the spec: the whole-filter snapshot with fields `levels`,
`hash_functions` and `array_size` (the derived `Serialize` for
`BloomFilter`). -/
def BloomFilter.encode (bf : BloomFilter) : Json :=
  .obj [("levels", .arr (bf.levels.map encodeLevel)),
    ("hash_functions", .arr (bf.hash_functions.map encodeHashFunction)),
    ("array_size", .num bf.array_size)]

/-- Modelled from the spec: decoding a boolean flag. -/
def decodeBool : Json → Except BloomFilterError Bool
  | .bool b => .ok b
  | _ => .error .SerdeError

/-- Modelled from the spec: decoding an unsigned integer. -/
def decodeNat : Json → Except BloomFilterError Nat
  | .num n => .ok n
  | _ => .error .SerdeError

/-- Element-by-element decoding of a JSON array body, first error wins. -/
def decodeListWith {A : Type} (f : Json → Except BloomFilterError A) :
    List Json → Except BloomFilterError (List A)
  | [] => .ok []
  | j :: rest =>
    match f j with
    | .error e => .error e
    | .ok a =>
      match decodeListWith f rest with
      | .error e => .error e
      | .ok as2 => .ok (a :: as2)

/-- Decoding a JSON array into a list. -/
def decodeArr {A : Type} (f : Json → Except BloomFilterError A) :
    Json → Except BloomFilterError (List A)
  | .arr xs => decodeListWith f xs
  | _ => .error .SerdeError

/-- Modelled from the spec: the derived `Deserialize` for `BloomLevel`:
field-by-field decoding, no cross-field validation. -/
def decodeLevel : Json → Except BloomFilterError BloomLevel
  | .obj fields =>
    match jLookup fields "bit_array" with
    | none => .error .SerdeError
    | some j =>
      match decodeArr decodeBool j with
      | .error e => .error e
      | .ok bits => .ok ⟨bits⟩
  | _ => .error .SerdeError

/-- Modelled from the spec: the derived `Deserialize` for `HashFunction`. -/
def decodeHashFunction : Json → Except BloomFilterError HashFunction
  | .obj fields =>
    match jLookup fields "multiplier" with
    | none => .error .SerdeError
    | some j =>
      match decodeNat j with
      | .error e => .error e
      | .ok m => .ok ⟨m⟩
  | _ => .error .SerdeError

/-- Modelled from the spec: the derived `Deserialize` for `BloomFilter`:
the three fields are decoded independently and assembled; the decoded
`array_size` is not checked against the decoded bit-array lengths (the spec
notes the source trusts the file here). -/
def BloomFilter.decode : Json → Except BloomFilterError BloomFilter
  | .obj fields =>
    match jLookup fields "levels", jLookup fields "hash_functions",
        jLookup fields "array_size" with
    | some jl, some jh, some ja =>
      match decodeArr decodeLevel jl with
      | .error e => .error e
      | .ok ls =>
        match decodeArr decodeHashFunction jh with
        | .error e => .error e
        | .ok hs =>
          match decodeNat ja with
          | .error e => .error e
          | .ok n => .ok ⟨ls, hs, n⟩
    | _, _, _ => .error .SerdeError
  | _ => .error .SerdeError

/-- The store visible to `save_to_file`/`load_from_file`: path to persisted
snapshot content. -/
abbrev FileSys := List (String × Json)

def fsRead : FileSys → String → Option Json
  | [], _ => none
  | (p, j) :: rest, path => if p = path then some j else fsRead rest path

/-- `BloomFilter::save_to_file`: overwrite the path with the serialized
snapshot. -/
def BloomFilter.save_to_file (bf : BloomFilter) (fs : FileSys) (path : String) : FileSys :=
  (path, bf.encode) :: fs

/-- `BloomFilter::load_from_file`: I/O error when the path is missing,
otherwise decode the content; nothing is adopted on failure. -/
def BloomFilter.load_from_file (fs : FileSys) (path : String) :
    Except BloomFilterError BloomFilter :=
  match fsRead fs path with
  | none => .error .IoError
  | some j => BloomFilter.decode j

theorem decodeListWith_bool (bits : List Bool) :
    decodeListWith decodeBool (bits.map Json.bool) = .ok bits := by
  induction bits with
  | nil => rfl
  | cons b rest ih =>
    rw [List.map_cons, decodeListWith]
    rw [show decodeBool (Json.bool b) = .ok b from rfl, ih]

theorem decodeLevel_encodeLevel (lv : BloomLevel) :
    decodeLevel (encodeLevel lv) = .ok lv := by
  simp [encodeLevel, decodeLevel, jLookup, decodeArr, decodeListWith_bool]

theorem decodeListWith_level (ls : List BloomLevel) :
    decodeListWith decodeLevel (ls.map encodeLevel) = .ok ls := by
  induction ls with
  | nil => rfl
  | cons lv rest ih =>
    rw [List.map_cons, decodeListWith, decodeLevel_encodeLevel lv, ih]

theorem decodeHashFunction_encode (hf : HashFunction) :
    decodeHashFunction (encodeHashFunction hf) = .ok hf := by
  simp [encodeHashFunction, decodeHashFunction, jLookup, decodeNat]

theorem decodeListWith_hashFunction (hs : List HashFunction) :
    decodeListWith decodeHashFunction (hs.map encodeHashFunction) = .ok hs := by
  induction hs with
  | nil => rfl
  | cons hf rest ih =>
    rw [List.map_cons, decodeListWith, decodeHashFunction_encode hf, ih]

theorem decode_encode (bf : BloomFilter) : BloomFilter.decode bf.encode = .ok bf := by
  simp [BloomFilter.encode, BloomFilter.decode, jLookup, decodeArr, decodeNat,
    decodeListWith_level, decodeListWith_hashFunction]

theorem load_save (bf : BloomFilter) (fs : FileSys) (path : String) :
    BloomFilter.load_from_file (bf.save_to_file fs path) path = BloomFilter.decode bf.encode := by
  rw [BloomFilter.save_to_file, BloomFilter.load_from_file]
  rw [show fsRead ((path, bf.encode) :: fs) path = some bf.encode from by
    rw [fsRead, if_pos rfl]]

/-- C4: saving any filter and loading from the same path yields a filter
structurally equal to the original (same levels, hash functions and
array_size), hence with identical query behaviour for every item and every
level count. -/
theorem saveLoadRoundTrip (bf : BloomFilter) (fs : FileSys) (path : String) :
    BloomFilter.load_from_file (bf.save_to_file fs path) path = .ok bf ∧
    ∀ bf2 : BloomFilter,
      BloomFilter.load_from_file (bf.save_to_file fs path) path = .ok bf2 →
      bf2.levels = bf.levels ∧ bf2.hash_functions = bf.hash_functions ∧
        bf2.array_size = bf.array_size ∧
        ∀ (item : Str) (n : Nat), bf2.query item n = bf.query item n := by
  have h1 : BloomFilter.load_from_file (bf.save_to_file fs path) path = .ok bf :=
    (load_save bf fs path).trans (decode_encode bf)
  refine ⟨h1, ?_⟩
  intro bf2 h2
  rw [h1, Except.ok.injEq] at h2
  subst h2
  exact ⟨rfl, rfl, rfl, fun _ _ => rfl⟩

theorem saveLoadRoundTrip_witness :
    BloomFilter.load_from_file
        (BloomFilter.save_to_file ⟨[⟨[true]⟩], [⟨31⟩], 1⟩ [] "snapshot") "snapshot" =
      .ok ⟨[⟨[true]⟩], [⟨31⟩], 1⟩ ∧
    BloomFilter.query ⟨[⟨[true]⟩], [⟨31⟩], 1⟩ [(116 : Fin 256)] 1 =
      BloomFilter.query ⟨[⟨[true]⟩], [⟨31⟩], 1⟩ [(116 : Fin 256)] 1 :=
  ⟨(saveLoadRoundTrip ⟨[⟨[true]⟩], [⟨31⟩], 1⟩ [] "snapshot").1,
   ((saveLoadRoundTrip ⟨[⟨[true]⟩], [⟨31⟩], 1⟩ [] "snapshot").2 ⟨[⟨[true]⟩], [⟨31⟩], 1⟩
      (saveLoadRoundTrip ⟨[⟨[true]⟩], [⟨31⟩], 1⟩ [] "snapshot").1).2.2.2 [(116 : Fin 256)] 1⟩

/-- A structurally well-typed snapshot whose `array_size` field (5)
disagrees with the length of the single decoded bit array (3). -/
def inconsistentSnapshot : Json :=
  .obj [("levels", .arr [.obj [("bit_array", .arr [.bool false, .bool false, .bool false])]]),
    ("hash_functions", .arr [.obj [("multiplier", .num 31)]]),
    ("array_size", .num 5)]

/-- C8 as stated is false: content whose decoded `array_size` is
inconsistent with the decoded bit-array lengths is accepted by `load`, not
rejected as a decoding error. -/
theorem loadValidation_counterexample :
    BloomFilter.decode inconsistentSnapshot = .ok ⟨[⟨[false, false, false]⟩], [⟨31⟩], 5⟩ ∧
    BloomFilter.load_from_file [("f", inconsistentSnapshot)] "f" =
      .ok ⟨[⟨[false, false, false]⟩], [⟨31⟩], 5⟩ ∧
    (5 : Nat) ≠ 3 := by
  refine ⟨by rfl, by rfl, by decide⟩

/-- C8 (amended): `load` fails with an I/O error when the path is missing
and with a decoding error on shape-malformed content, and adopts no partial
structure on failure; the decoded `array_size` is NOT validated against the
decoded bit-array lengths — inconsistent but well-typed content is
accepted. -/
theorem loadValidation (fs : FileSys) (path : String) :
    (fsRead fs path = none → BloomFilter.load_from_file fs path = .error .IoError) ∧
    (∀ j : Json, fsRead fs path = some j →
      BloomFilter.load_from_file fs path = BloomFilter.decode j) ∧
    BloomFilter.decode (.str "junk") = .error .SerdeError ∧
    BloomFilter.decode inconsistentSnapshot = .ok ⟨[⟨[false, false, false]⟩], [⟨31⟩], 5⟩ := by
  refine ⟨?_, ?_, rfl, rfl⟩
  · intro h
    rw [BloomFilter.load_from_file, h]
  · intro j h
    rw [BloomFilter.load_from_file, h]

theorem loadValidation_witness :
    BloomFilter.load_from_file [] "missing" = .error .IoError ∧
    BloomFilter.load_from_file [("f", Json.str "junk")] "f" = .error .SerdeError :=
  ⟨(loadValidation [] "missing").1 rfl,
   ((loadValidation [("f", Json.str "junk")] "f").2.1 (Json.str "junk") rfl).trans
     (loadValidation [("f", Json.str "junk")] "f").2.2.1⟩
